import Mathlib

/-!
Verification development for the MQGeometry quasi-geostrophic core, as
exercised by the driver script vortex_wall.py.  The driver script is the
only source file present; the core it calls (the spectral Helmholtz solver,
the capacitance-matrix correction, the vertical mode basis and the
finite-volume time integrator of MQGeometry) is modelled here from the
specification, in exact rational arithmetic.  Fields are rational-valued
matrices; the single-layer, single-ensemble configuration of the driver
(nl = 1, n_ens = 1) is the one embedded.
-/

open Matrix

/-- Modelled from the spec: the data of the Spectral Elliptic Core (spec 4.3)
of MQGeometry.helmholtz, which is not under src/.  The core solves
(Laplacian - beta) psi = rhs on the full rectangle with homogeneous boundary
values by transforming into the sine eigenbasis of the separable discrete 2-D
Laplacian.  `Sx`/`Sy` are the forward 1-D transforms along each axis,
`Sxi`/`Syi` their inverses, and `lam_x`/`lam_y` the known 1-D
discrete-Laplacian eigenvalues. -/
structure SpectralSolver (nx ny : ℕ) where
  Sx : Matrix (Fin nx) (Fin nx) ℚ
  Sxi : Matrix (Fin nx) (Fin nx) ℚ
  Sy : Matrix (Fin ny) (Fin ny) ℚ
  Syi : Matrix (Fin ny) (Fin ny) ℚ
  lam_x : Fin nx → ℚ
  lam_y : Fin ny → ℚ

/-- Forward separable 2-D transform: apply the 1-D transform along each axis. -/
def dst2 {nx ny : ℕ} (S : SpectralSolver nx ny) (f : Matrix (Fin nx) (Fin ny) ℚ) :
    Matrix (Fin nx) (Fin ny) ℚ :=
  S.Sx * f * S.Syᵀ

/-- Inverse separable 2-D transform. -/
def idst2 {nx ny : ℕ} (S : SpectralSolver nx ny) (f : Matrix (Fin nx) (Fin ny) ℚ) :
    Matrix (Fin nx) (Fin ny) ℚ :=
  S.Sxi * f * S.Syiᵀ

/-- Modelled from the spec: the transform-space coefficient update of spec 4.3.
Each coefficient is divided by (lam_x i + lam_y j - beta); if that denominator
is zero the coefficient is forced to zero rather than divided (the documented
compatibility policy for a near-singular mode). -/
def helmholtzCoeffs {nx ny : ℕ} (S : SpectralSolver nx ny) (beta : ℚ)
    (rhs : Matrix (Fin nx) (Fin ny) ℚ) : Matrix (Fin nx) (Fin ny) ℚ :=
  Matrix.of fun i j =>
    if S.lam_x i + S.lam_y j - beta = 0 then 0
    else dst2 S rhs i j / (S.lam_x i + S.lam_y j - beta)

/-- Modelled from the spec: the unmasked direct spectral Helmholtz solve of
spec 4.3 (MQGeometry.helmholtz.solve_helmholtz_dst, not under src/):
transform, divide each coefficient by the eigenvalue combination, transform
back.  No iteration. -/
def solve_helmholtz_dst {nx ny : ℕ} (S : SpectralSolver nx ny) (beta : ℚ)
    (rhs : Matrix (Fin nx) (Fin ny) ℚ) : Matrix (Fin nx) (Fin ny) ℚ :=
  idst2 S (helmholtzCoeffs S beta rhs)

/-- One-dimensional discrete Dirichlet Laplacian (second-difference matrix)
with grid spacing `d`, the operator whose eigenbasis spec 4.3 transforms
into. -/
def lap1d (n : ℕ) (d : ℚ) : Matrix (Fin n) (Fin n) ℚ :=
  Matrix.of fun i j =>
    if i = j then -2 / d ^ 2
    else if (i : ℕ) + 1 = (j : ℕ) ∨ (j : ℕ) + 1 = (i : ℕ) then 1 / d ^ 2 else 0

/-- Five-point discrete 2-D Laplacian with homogeneous Dirichlet boundary,
assembled from the separable 1-D operators (spec 4.5, consistent with the
operator inverted in spec 4.3). -/
def laplacian2d {nx ny : ℕ} (dx dy : ℚ) (psi : Matrix (Fin nx) (Fin ny) ℚ) :
    Matrix (Fin nx) (Fin ny) ℚ :=
  lap1d nx dx * psi + psi * (lap1d ny dy)ᵀ

lemma lapT_SyT {ny : ℕ} (S : SpectralSolver nx ny) (dy : ℚ)
    (hLy : S.Sy * lap1d ny dy = Matrix.diagonal S.lam_y * S.Sy) :
    (lap1d ny dy)ᵀ * S.Syᵀ = S.Syᵀ * Matrix.diagonal S.lam_y := by
  rw [← Matrix.transpose_mul, hLy, Matrix.transpose_mul, Matrix.diagonal_transpose]

lemma idst2_dst2 {nx ny : ℕ} (S : SpectralSolver nx ny)
    (hx : S.Sxi * S.Sx = 1) (hy : S.Syi * S.Sy = 1)
    (f : Matrix (Fin nx) (Fin ny) ℚ) : idst2 S (dst2 S f) = f := by
  have h3 : S.Syᵀ * S.Syiᵀ = 1 := by
    rw [← Matrix.transpose_mul, hy, Matrix.transpose_one]
  unfold idst2 dst2
  simp only [← Matrix.mul_assoc]
  rw [hx, Matrix.one_mul, Matrix.mul_assoc, h3, Matrix.mul_one]

lemma dst2_helmholtz {nx ny : ℕ} (S : SpectralSolver nx ny) (dx dy beta : ℚ)
    (hLx : S.Sx * lap1d nx dx = Matrix.diagonal S.lam_x * S.Sx)
    (hLy : S.Sy * lap1d ny dy = Matrix.diagonal S.lam_y * S.Sy)
    (psi : Matrix (Fin nx) (Fin ny) ℚ) :
    dst2 S (laplacian2d dx dy psi - beta • psi) =
      Matrix.diagonal S.lam_x * dst2 S psi + dst2 S psi * Matrix.diagonal S.lam_y
        - beta • dst2 S psi := by
  have hA : S.Sx * (lap1d nx dx * psi) * S.Syᵀ
      = Matrix.diagonal S.lam_x * (S.Sx * psi * S.Syᵀ) := by
    rw [← Matrix.mul_assoc S.Sx (lap1d nx dx) psi, hLx,
      Matrix.mul_assoc (Matrix.diagonal S.lam_x) S.Sx psi, Matrix.mul_assoc]
  have hB : S.Sx * (psi * (lap1d ny dy)ᵀ) * S.Syᵀ
      = S.Sx * psi * S.Syᵀ * Matrix.diagonal S.lam_y := by
    rw [← Matrix.mul_assoc S.Sx psi ((lap1d ny dy)ᵀ),
      Matrix.mul_assoc (S.Sx * psi) ((lap1d ny dy)ᵀ) (S.Syᵀ),
      lapT_SyT S dy hLy, ← Matrix.mul_assoc]
  unfold dst2 laplacian2d
  simp only [Matrix.mul_sub, Matrix.sub_mul, Matrix.mul_add, Matrix.add_mul,
    Matrix.mul_smul, Matrix.smul_mul]
  rw [hA, hB]

lemma helmholtzCoeffs_roundtrip {nx ny : ℕ} (S : SpectralSolver nx ny)
    (dx dy beta : ℚ)
    (hLx : S.Sx * lap1d nx dx = Matrix.diagonal S.lam_x * S.Sx)
    (hLy : S.Sy * lap1d ny dy = Matrix.diagonal S.lam_y * S.Sy)
    (hden : ∀ i j, S.lam_x i + S.lam_y j - beta ≠ 0)
    (psi : Matrix (Fin nx) (Fin ny) ℚ) :
    helmholtzCoeffs S beta (laplacian2d dx dy psi - beta • psi) = dst2 S psi := by
  ext i j
  simp only [helmholtzCoeffs, Matrix.of_apply]
  rw [if_neg (hden i j), dst2_helmholtz S dx dy beta hLx hLy psi]
  simp only [Matrix.add_apply, Matrix.sub_apply, Matrix.smul_apply,
    Matrix.diagonal_mul, Matrix.mul_diagonal, smul_eq_mul]
  have hnum : S.lam_x i * dst2 S psi i j + dst2 S psi i j * S.lam_y j
      - beta * dst2 S psi i j
      = (S.lam_x i + S.lam_y j - beta) * dst2 S psi i j := by ring
  rw [hnum, mul_div_cancel_left₀ _ (hden i j)]

/-- C1: the unmasked spectral solve is a direct exact inverse of the discrete
Helmholtz operator.  If the transforms invert each other, the transforms
diagonalize the 1-D discrete Laplacians with eigenvalues lam_x, lam_y, and
every eigenvalue combination lam_x i + lam_y j - beta is nonzero, then for
every field psi vanishing outside the interior grid (encoded by working on
the interior unknowns), solve_helmholtz_dst applied to
rhs = (Laplacian - beta) psi returns exactly psi, in exact arithmetic. -/
theorem solve_helmholtz_dst_inverts {nx ny : ℕ} (S : SpectralSolver nx ny)
    (dx dy beta : ℚ)
    (hx : S.Sxi * S.Sx = 1) (hy : S.Syi * S.Sy = 1)
    (hLx : S.Sx * lap1d nx dx = Matrix.diagonal S.lam_x * S.Sx)
    (hLy : S.Sy * lap1d ny dy = Matrix.diagonal S.lam_y * S.Sy)
    (hden : ∀ i j, S.lam_x i + S.lam_y j - beta ≠ 0)
    (psi : Matrix (Fin nx) (Fin ny) ℚ) :
    solve_helmholtz_dst S beta (laplacian2d dx dy psi - beta • psi) = psi := by
  unfold solve_helmholtz_dst
  rw [helmholtzCoeffs_roundtrip S dx dy beta hLx hLy hden psi]
  exact idst2_dst2 S hx hy psi

/-- Concrete one-point spectral solver used as evaluation instance: on a
1 x 1 interior grid with unit spacing the sine transform is the identity and
the 1-D Dirichlet Laplacian is the scalar -2. -/
def S1 : SpectralSolver 1 1 :=
  ⟨1, 1, 1, 1, fun _ => -2, fun _ => -2⟩

/-- Concrete test field for the evaluation instance. -/
def psi1 : Matrix (Fin 1) (Fin 1) ℚ := Matrix.of fun _ _ => 3

lemma S1_diag : S1.Sx * lap1d 1 1 = Matrix.diagonal S1.lam_x * S1.Sx := by
  ext i j
  fin_cases i; fin_cases j
  simp [S1, lap1d, Matrix.mul_apply, Matrix.diagonal]

/-- Witness for C1 at the concrete one-point instance with beta = 0. -/
theorem solve_helmholtz_dst_inverts_witness :
    (S1.Sxi * S1.Sx = 1) ∧ (S1.Syi * S1.Sy = 1) ∧
    (S1.Sx * lap1d 1 1 = Matrix.diagonal S1.lam_x * S1.Sx) ∧
    (S1.Sy * lap1d 1 1 = Matrix.diagonal S1.lam_y * S1.Sy) ∧
    (∀ i j, S1.lam_x i + S1.lam_y j - 0 ≠ 0) ∧
    solve_helmholtz_dst S1 0 (laplacian2d 1 1 psi1 - (0 : ℚ) • psi1) = psi1 := by
  have hx : S1.Sxi * S1.Sx = 1 := Matrix.one_mul 1
  have hy : S1.Syi * S1.Sy = 1 := Matrix.one_mul 1
  have hLx : S1.Sx * lap1d 1 1 = Matrix.diagonal S1.lam_x * S1.Sx := S1_diag
  have hLy : S1.Sy * lap1d 1 1 = Matrix.diagonal S1.lam_y * S1.Sy := S1_diag
  have hden : ∀ i j, S1.lam_x i + S1.lam_y j - (0 : ℚ) ≠ 0 := by
    intro i j; show (-2 : ℚ) + -2 - 0 ≠ 0; norm_num
  exact ⟨hx, hy, hLx, hLy, hden,
    solve_helmholtz_dst_inverts S1 1 1 0 hx hy hLx hLy hden psi1⟩

/-- C7: the transform-space coefficient update of the spectral core forces a
coefficient to zero whenever its eigenvalue-combination denominator
lam_x i + lam_y j - beta vanishes, instead of dividing by it; a division is
only ever performed with a nonzero denominator. -/
theorem helmholtzCoeffs_singular_zero {nx ny : ℕ} (S : SpectralSolver nx ny)
    (beta : ℚ) (rhs : Matrix (Fin nx) (Fin ny) ℚ) (i : Fin nx) (j : Fin ny)
    (hzero : S.lam_x i + S.lam_y j - beta = 0) :
    helmholtzCoeffs S beta rhs i j = 0 := by
  simp only [helmholtzCoeffs, Matrix.of_apply, if_pos hzero]

/-- Witness for C7: with beta = -4 the one-point instance has a vanishing
denominator, and the coefficient of an arbitrary nonzero rhs is forced to
zero. -/
theorem helmholtzCoeffs_singular_zero_witness :
    (S1.lam_x 0 + S1.lam_y 0 - (-4 : ℚ) = 0) ∧
    helmholtzCoeffs S1 (-4) psi1 0 0 = 0 := by
  have hzero : S1.lam_x 0 + S1.lam_y 0 - (-4 : ℚ) = 0 := by
    show (-2 : ℚ) + -2 - (-4) = 0; norm_num
  exact ⟨hzero, helmholtzCoeffs_singular_zero S1 (-4) psi1 0 0 hzero⟩

lemma dst2_add {nx ny : ℕ} (S : SpectralSolver nx ny)
    (x y : Matrix (Fin nx) (Fin ny) ℚ) : dst2 S (x + y) = dst2 S x + dst2 S y := by
  simp [dst2, Matrix.mul_add, Matrix.add_mul]

lemma dst2_smul {nx ny : ℕ} (S : SpectralSolver nx ny) (c : ℚ)
    (x : Matrix (Fin nx) (Fin ny) ℚ) : dst2 S (c • x) = c • dst2 S x := by
  simp [dst2, Matrix.mul_smul, Matrix.smul_mul]

lemma idst2_add {nx ny : ℕ} (S : SpectralSolver nx ny)
    (x y : Matrix (Fin nx) (Fin ny) ℚ) : idst2 S (x + y) = idst2 S x + idst2 S y := by
  simp [idst2, Matrix.mul_add, Matrix.add_mul]

lemma idst2_smul {nx ny : ℕ} (S : SpectralSolver nx ny) (c : ℚ)
    (x : Matrix (Fin nx) (Fin ny) ℚ) : idst2 S (c • x) = c • idst2 S x := by
  simp [idst2, Matrix.mul_smul, Matrix.smul_mul]

lemma helmholtzCoeffs_add {nx ny : ℕ} (S : SpectralSolver nx ny) (beta : ℚ)
    (x y : Matrix (Fin nx) (Fin ny) ℚ) :
    helmholtzCoeffs S beta (x + y) = helmholtzCoeffs S beta x + helmholtzCoeffs S beta y := by
  ext i j
  simp only [helmholtzCoeffs, Matrix.of_apply, Matrix.add_apply, dst2_add]
  by_cases h : S.lam_x i + S.lam_y j - beta = 0
  · simp [h]
  · simp [h, add_div]

lemma helmholtzCoeffs_smul {nx ny : ℕ} (S : SpectralSolver nx ny) (beta c : ℚ)
    (x : Matrix (Fin nx) (Fin ny) ℚ) :
    helmholtzCoeffs S beta (c • x) = c • helmholtzCoeffs S beta x := by
  ext i j
  simp only [helmholtzCoeffs, Matrix.of_apply, Matrix.smul_apply, dst2_smul,
    smul_eq_mul]
  by_cases h : S.lam_x i + S.lam_y j - beta = 0
  · simp [h]
  · simp [h, mul_div_assoc]

/-- The unmasked spectral solve bundled as a linear map in its right-hand
side (the solve is transform, entrywise scaling, inverse transform, hence
linear). -/
def solveLin {nx ny : ℕ} (S : SpectralSolver nx ny) (beta : ℚ) :
    Matrix (Fin nx) (Fin ny) ℚ →ₗ[ℚ] Matrix (Fin nx) (Fin ny) ℚ where
  toFun := solve_helmholtz_dst S beta
  map_add' x y := by
    simp [solve_helmholtz_dst, helmholtzCoeffs_add, idst2_add]
  map_smul' c x := by
    simp [solve_helmholtz_dst, helmholtzCoeffs_smul, idst2_smul]

lemma solve_helmholtz_dst_sub {nx ny : ℕ} (S : SpectralSolver nx ny) (beta : ℚ)
    (x y : Matrix (Fin nx) (Fin ny) ℚ) :
    solve_helmholtz_dst S beta (x - y)
      = solve_helmholtz_dst S beta x - solve_helmholtz_dst S beta y := by
  simpa [solveLin] using map_sub (solveLin S beta) x y

/-- Values of a corner field at the M irregular boundary points (spec 4.4:
the residual evaluation at the boundary point locations). -/
def evalAt {nx ny M : ℕ} (loc : Fin M → Fin nx × Fin ny)
    (psi : Matrix (Fin nx) (Fin ny) ℚ) : Fin M → ℚ :=
  fun k => psi (loc k).1 (loc k).2

/-- Modelled from the spec: M point sources placed at the irregular boundary
point locations (spec 4.4 step 3). -/
def pointSources {nx ny M : ℕ} (loc : Fin M → Fin nx × Fin ny)
    (alpha : Fin M → ℚ) : Matrix (Fin nx) (Fin ny) ℚ :=
  Matrix.of fun i j => ∑ k, if loc k = (i, j) then alpha k else 0

/-- Point-source placement bundled as a linear map in the source strengths. -/
def pointSourcesLin {nx ny M : ℕ} (loc : Fin M → Fin nx × Fin ny) :
    (Fin M → ℚ) →ₗ[ℚ] Matrix (Fin nx) (Fin ny) ℚ where
  toFun := pointSources loc
  map_add' a b := by
    ext i j
    simp only [pointSources, Matrix.of_apply, Matrix.add_apply, Pi.add_apply]
    rw [← Finset.sum_add_distrib]
    refine Finset.sum_congr rfl fun k _ => ?_
    split <;> simp
  map_smul' c a := by
    ext i j
    simp only [pointSources, Matrix.of_apply, Matrix.smul_apply, Pi.smul_apply,
      smul_eq_mul, RingHom.id_apply]
    rw [Finset.mul_sum]
    refine Finset.sum_congr rfl fun k _ => ?_
    split <;> simp

/-- Evaluation at the M boundary points bundled as a linear map. -/
def evalAtLin {nx ny M : ℕ} (loc : Fin M → Fin nx × Fin ny) :
    Matrix (Fin nx) (Fin ny) ℚ →ₗ[ℚ] (Fin M → ℚ) where
  toFun := evalAt loc
  map_add' x y := by ext k; simp [evalAt]
  map_smul' c x := by ext k; simp [evalAt]

/-- Modelled from the spec: the M x M capacitance matrix of spec 4.4,
precomputed from the Green-function response of the unmasked spectral solver
at the M boundary points: column l is the boundary-point response to a unit
source at boundary point l. -/
def capMatrix {nx ny M : ℕ} (S : SpectralSolver nx ny) (beta : ℚ)
    (loc : Fin M → Fin nx × Fin ny) : Matrix (Fin M) (Fin M) ℚ :=
  Matrix.of fun k l =>
    evalAt loc
      (solve_helmholtz_dst S beta (pointSources loc fun m => if m = l then 1 else 0)) k

/-- The boundary response to arbitrary source strengths is multiplication by
the capacitance matrix. -/
lemma capMatrix_response {nx ny M : ℕ} (S : SpectralSolver nx ny) (beta : ℚ)
    (loc : Fin M → Fin nx × Fin ny) (alpha : Fin M → ℚ) :
    evalAt loc (solve_helmholtz_dst S beta (pointSources loc alpha))
      = capMatrix S beta loc *ᵥ alpha := by
  have hf : capMatrix S beta loc
      = LinearMap.toMatrix'
          ((evalAtLin loc).comp ((solveLin S beta).comp (pointSourcesLin loc))) := by
    ext k l
    rw [LinearMap.toMatrix'_apply]
    simp [capMatrix, evalAtLin, solveLin, pointSourcesLin]
  have happ :
      ((evalAtLin loc).comp ((solveLin S beta).comp (pointSourcesLin loc))) alpha
        = evalAt loc (solve_helmholtz_dst S beta (pointSources loc alpha)) := by
    simp [evalAtLin, solveLin, pointSourcesLin]
  rw [hf, ← Matrix.toLin'_apply, Matrix.toLin'_toMatrix', happ]

/-- Modelled from the spec: the capacitance-matrix corrected solve of spec 4.4
(MQGeometry.helmholtz.solve_helmholtz_dst_cmm, not under src/): solve the
unmasked problem, evaluate the residual at the M irregular boundary points,
multiply by the precomputed inverse capacitance matrix to obtain M
point-source corrections, re-solve with the rhs augmented by those point
sources (signed so that the corrected solution vanishes at the M points),
and finally apply the corner mask. -/
def solve_helmholtz_dst_cmm {nx ny M : ℕ} (S : SpectralSolver nx ny) (beta : ℚ)
    (Cinv : Matrix (Fin M) (Fin M) ℚ) (loc : Fin M → Fin nx × Fin ny)
    (maskP : Matrix (Fin nx) (Fin ny) ℚ) (rhs : Matrix (Fin nx) (Fin ny) ℚ) :
    Matrix (Fin nx) (Fin ny) ℚ :=
  let psi0 := solve_helmholtz_dst S beta rhs
  let alpha := Cinv *ᵥ evalAt loc psi0
  let psi1 := solve_helmholtz_dst S beta (rhs - pointSources loc alpha)
  Matrix.of fun i j => maskP i j * psi1 i j

/-- C2: the capacitance-matrix corrected solve returns a streamfunction that
is exactly zero at every one of the M irregular boundary points, for every
right-hand side, provided the precomputed matrix Cinv is a right inverse of
the capacitance matrix built from the same solver, mode parameter beta and
boundary points (the spec 4.4 precondition). -/
theorem solve_helmholtz_dst_cmm_zero_at_boundary {nx ny M : ℕ}
    (S : SpectralSolver nx ny) (beta : ℚ) (Cinv : Matrix (Fin M) (Fin M) ℚ)
    (loc : Fin M → Fin nx × Fin ny) (maskP rhs : Matrix (Fin nx) (Fin ny) ℚ)
    (hC : capMatrix S beta loc * Cinv = 1) (k : Fin M) :
    evalAt loc (solve_helmholtz_dst_cmm S beta Cinv loc maskP rhs) k = 0 := by
  set r := evalAt loc (solve_helmholtz_dst S beta rhs) with hr
  have h1 : solve_helmholtz_dst S beta (rhs - pointSources loc (Cinv *ᵥ r))
      = solve_helmholtz_dst S beta rhs
        - solve_helmholtz_dst S beta (pointSources loc (Cinv *ᵥ r)) :=
    solve_helmholtz_dst_sub S beta rhs (pointSources loc (Cinv *ᵥ r))
  have h2 : evalAt loc (solve_helmholtz_dst S beta (pointSources loc (Cinv *ᵥ r)))
      = capMatrix S beta loc *ᵥ (Cinv *ᵥ r) :=
    capMatrix_response S beta loc (Cinv *ᵥ r)
  have h3 : capMatrix S beta loc *ᵥ (Cinv *ᵥ r) = r := by
    rw [Matrix.mulVec_mulVec, hC, Matrix.one_mulVec]
  have h4 : evalAt loc (solve_helmholtz_dst S beta
      (rhs - pointSources loc (Cinv *ᵥ r))) k = 0 := by
    rw [h1]
    have : evalAt loc (solve_helmholtz_dst S beta rhs
        - solve_helmholtz_dst S beta (pointSources loc (Cinv *ᵥ r))) k
        = r k - evalAt loc
            (solve_helmholtz_dst S beta (pointSources loc (Cinv *ᵥ r))) k := by
      simp [evalAt, Matrix.sub_apply, hr]
    rw [this, h2, h3, sub_self]
  show maskP (loc k).1 (loc k).2 * _ = 0
  rw [← hr]
  have h5 : solve_helmholtz_dst S beta
      (rhs - pointSources loc (Cinv *ᵥ r)) (loc k).1 (loc k).2 = 0 := h4
  rw [h5, mul_zero]

/-- Single irregular boundary point of the one-point evaluation instance. -/
def loc1 : Fin 1 → Fin 1 × Fin 1 := fun _ => (0, 0)

/-- Precomputed inverse capacitance matrix of the one-point instance: the
unit-source boundary response there is -1/4, so the inverse is -4. -/
def Cinv1 : Matrix (Fin 1) (Fin 1) ℚ := Matrix.of fun _ _ => -4

/-- Corner mask of the one-point instance (all points valid). -/
def maskP1 : Matrix (Fin 1) (Fin 1) ℚ := Matrix.of fun _ _ => 1

/-- Witness for C2 at the one-point instance with beta = 0 and rhs = 3. -/
theorem solve_helmholtz_dst_cmm_zero_at_boundary_witness :
    (capMatrix S1 0 loc1 * Cinv1 = 1) ∧
    evalAt loc1 (solve_helmholtz_dst_cmm S1 0 Cinv1 loc1 maskP1 psi1) 0 = 0 := by
  have hC : capMatrix S1 0 loc1 * Cinv1 = 1 := by
    ext k l
    fin_cases k; fin_cases l
    norm_num [capMatrix, Cinv1, loc1, evalAt, solve_helmholtz_dst, idst2, dst2,
      helmholtzCoeffs, pointSources, S1, Matrix.mul_apply, Matrix.one_apply,
      Fin.sum_univ_succ]
  exact ⟨hC, solve_helmholtz_dst_cmm_zero_at_boundary S1 0 Cinv1 loc1 maskP1 psi1 hC 0⟩

/-- Modelled from the spec: the Vertical Mode Basis of spec 4.2 / spec 3
(MQGeometry.qgm, not under src/): a layer-to-mode transform Cl2m, a
mode-to-layer transform Cm2l and one inverse-deformation parameter per mode,
obtained from the eigendecomposition of the layered stratification matrix. -/
structure ModeBasis (nl : ℕ) where
  Cl2m : Matrix (Fin nl) (Fin nl) ℚ
  Cm2l : Matrix (Fin nl) (Fin nl) ℚ
  beta_m : Fin nl → ℚ

/-- Modelled from the spec: the degenerate single-layer mode basis of
spec 4.2, where the decomposition reduces to Cl2m = Cm2l = [1] and
beta_0 = 0 (pure barotropic case, the configuration exercised by the
driver with nl = 1). -/
def modeBasisSingle : ModeBasis 1 :=
  ⟨1, 1, fun _ => 0⟩

/-- C5: if the mode-basis matrices satisfy the data-model invariant
Cm2l * Cl2m = identity (spec 3, guaranteed by the eigendecomposition of
spec 4.2), then applying the layer-to-mode transform followed by the
mode-to-layer transform returns every layer-space vector unchanged; and in
the single-layer case both matrices equal the scalar 1. -/
theorem modeBasis_roundtrip {nl : ℕ} (MB : ModeBasis nl)
    (hinv : MB.Cm2l * MB.Cl2m = 1) :
    (∀ x : Fin nl → ℚ, MB.Cm2l *ᵥ (MB.Cl2m *ᵥ x) = x) ∧
    (∀ i j, modeBasisSingle.Cl2m i j = 1 ∧ modeBasisSingle.Cm2l i j = 1) := by
  constructor
  · intro x
    rw [Matrix.mulVec_mulVec, hinv, Matrix.one_mulVec]
  · intro i j
    fin_cases i; fin_cases j
    constructor <;> simp [modeBasisSingle, Matrix.one_apply]

/-- Concrete two-layer mode basis used as evaluation instance for C5. -/
def MB2 : ModeBasis 2 :=
  ⟨Matrix.of ![![1, -1], ![0, 1]], Matrix.of ![![1, 1], ![0, 1]], fun _ => 0⟩

/-- Witness for C5 at a concrete invertible two-layer basis and the vector
(2, 3). -/
theorem modeBasis_roundtrip_witness :
    (MB2.Cm2l * MB2.Cl2m = 1) ∧
    MB2.Cm2l *ᵥ (MB2.Cl2m *ᵥ ![2, 3]) = ![2, 3] := by
  have hinv : MB2.Cm2l * MB2.Cl2m = 1 := by
    ext i j
    fin_cases i <;> fin_cases j <;>
      simp [MB2, Matrix.mul_apply, Fin.sum_univ_succ, Matrix.one_apply]
  exact ⟨hinv, (modeBasis_roundtrip MB2 hinv).1 ![2, 3]⟩

/-- Modelled from the spec: the construction parameters of the Time
Integrator (spec 4.6 and spec 6, MQGeometry.qgm.QGFV, not under src/), in
the single-layer single-ensemble configuration of the driver: grid spacings,
layer thickness and buoyancy jump, Coriolis parameter, wind-forcing and
bottom-drag coefficients, the base center validity mask with its prescribed
boundary values, and the fixed time step. -/
structure QGParams (nx ny : ℕ) where
  dx : ℚ
  dy : ℚ
  H : ℚ
  g_prime : ℚ
  f0 : ℚ
  tau0 : ℚ
  bottom_drag_coef : ℚ
  maskC : Fin nx → Fin ny → Bool
  bval : Matrix (Fin nx) (Fin ny) ℚ
  dt : ℚ

/-- Modelled from the spec: the discretization choices the spec leaves
configurable and does not pin with formulas — the advective flux of the
chosen stencil width evaluated on the current (psi, q) pair (spec 4.6
step 2), the elliptic inversion recomputing psi from q (spec 4.6 step 5,
composed of spec 4.2 to 4.4), and the fixed wind-forcing curl pattern whose
constant coefficient is tau0 (spec 4.6 step 3). -/
structure Scheme (nx ny : ℕ) where
  fluxX : Matrix (Fin nx) (Fin ny) ℚ → Matrix (Fin nx) (Fin ny) ℚ →
    Fin (nx + 1) → Fin ny → ℚ
  fluxY : Matrix (Fin nx) (Fin ny) ℚ → Matrix (Fin nx) (Fin ny) ℚ →
    Fin nx → Fin (ny + 1) → ℚ
  invert : Matrix (Fin nx) (Fin ny) ℚ → Matrix (Fin nx) (Fin ny) ℚ
  windCurl : Matrix (Fin nx) (Fin ny) ℚ

/-- Closed-domain x-edge flux: the normal flux through the two outer walls is
zero (the domain boundary is a wall; spec 4.6 flux-form advection on a closed
rectangle). -/
def closedFluxX {nx ny : ℕ} (f : Fin (nx + 1) → Fin ny → ℚ) :
    Fin (nx + 1) → Fin ny → ℚ :=
  fun e j => if e = 0 ∨ e = Fin.last nx then 0 else f e j

/-- Closed-domain y-edge flux: zero through the two outer walls. -/
def closedFluxY {nx ny : ℕ} (f : Fin nx → Fin (ny + 1) → ℚ) :
    Fin nx → Fin (ny + 1) → ℚ :=
  fun i e => if e = 0 ∨ e = Fin.last ny then 0 else f i e

/-- Flux-form divergence at cell centers: difference of the edge fluxes
across each cell, divided by the cell size (spec 4.6 step 2). -/
def fluxDiv {nx ny : ℕ} (dx dy : ℚ) (fx : Fin (nx + 1) → Fin ny → ℚ)
    (fy : Fin nx → Fin (ny + 1) → ℚ) : Matrix (Fin nx) (Fin ny) ℚ :=
  Matrix.of fun i j =>
    (fx i.succ j - fx i.castSucc j) / dx + (fy i j.succ - fy i j.castSucc) / dy

/-- Modelled from the spec: the right-hand side of the PV update of spec 4.6
step 4, minus flux divergence plus wind forcing minus bottom drag (the drag
is linear in the local vorticity, diagnosed as the discrete Laplacian of
psi). -/
def tendency {nx ny : ℕ} (p : QGParams nx ny) (sch : Scheme nx ny)
    (psi q : Matrix (Fin nx) (Fin ny) ℚ) : Matrix (Fin nx) (Fin ny) ℚ :=
  -fluxDiv p.dx p.dy (closedFluxX (sch.fluxX psi q)) (closedFluxY (sch.fluxY psi q))
    + p.tau0 • sch.windCurl - p.bottom_drag_coef • laplacian2d p.dx p.dy psi

/-- Reapplication of the center mask: excluded cells are forced back to their
prescribed boundary value (spec 4.6 step 4). -/
def applyMask {nx ny : ℕ} (p : QGParams nx ny) (q : Matrix (Fin nx) (Fin ny) ℚ) :
    Matrix (Fin nx) (Fin ny) ℚ :=
  Matrix.of fun i j => if p.maskC i j then q i j else p.bval i j

/-- Modelled from the spec: the Simulation State of spec 3, owned by the
integrator: the PV field q at cell centers, the streamfunction psi derived
from it, elapsed time and the fixed step dt. -/
structure QGState (nx ny : ℕ) where
  q : Matrix (Fin nx) (Fin ny) ℚ
  psi : Matrix (Fin nx) (Fin ny) ℚ
  t : ℚ
  dt : ℚ

/-- Modelled from the spec: one fixed time step of the integrator (spec 4.6):
update q by dt times the tendency, reapply the center mask, recompute psi
from the updated q by elliptic inversion, and advance the clock by dt. -/
def step {nx ny : ℕ} (p : QGParams nx ny) (sch : Scheme nx ny)
    (s : QGState nx ny) : QGState nx ny :=
  ⟨applyMask p (s.q + s.dt • tendency p sch s.psi s.q),
   sch.invert (applyMask p (s.q + s.dt • tendency p sch s.psi s.q)),
   s.t + s.dt, s.dt⟩

/-- Modelled from the spec: construction of the simulation state (spec 6,
spec 7): validate the configuration (positive layer thickness and grid
spacings raise ConfigurationError; dt is not validated and not used), apply
the mask to the initial PV and derive the initial psi by inversion. -/
def mkQGState {nx ny : ℕ} (p : QGParams nx ny) (sch : Scheme nx ny)
    (q0 : Matrix (Fin nx) (Fin ny) ℚ) : Except String (QGState nx ny) :=
  if p.H ≤ 0 then Except.error "ConfigurationError: non-positive layer thickness"
  else if p.dx ≤ 0 ∨ p.dy ≤ 0 then
    Except.error "ConfigurationError: non-positive grid spacing"
  else Except.ok ⟨applyMask p q0, sch.invert (applyMask p q0), 0, p.dt⟩

/-- Modelled from the spec: the mutable PV accessor of spec 6 — an external
write to q is a plain field write that performs no inversion. -/
def setQ {nx ny : ℕ} (s : QGState nx ny) (qnew : Matrix (Fin nx) (Fin ny) ℚ) :
    QGState nx ny :=
  { s with q := qnew }

/-- Assignment of a new time step after construction (spec 6: dt is mutable
after construction, the driver sets it after the initial diagnostic solve). -/
def setDt {nx ny : ℕ} (s : QGState nx ny) (d : ℚ) : QGState nx ny :=
  { s with dt := d }

/-- Domain integral of a cell-center field (sum over all cells). -/
def total {nx ny : ℕ} (q : Matrix (Fin nx) (Fin ny) ℚ) : ℚ :=
  ∑ i, ∑ j, q i j

lemma telescope (n : ℕ) (g : Fin (n + 1) → ℚ) :
    ∑ i : Fin n, (g i.succ - g i.castSucc) = g (Fin.last n) - g 0 := by
  induction n with
  | zero => simp [Fin.last]
  | succ n ih =>
    rw [Fin.sum_univ_castSucc]
    have hsum : ∑ i : Fin n, (g i.castSucc.succ - g i.castSucc.castSucc)
        = g (Fin.last n).castSucc - g 0 := by
      have h := ih fun j : Fin (n + 1) => g j.castSucc
      simp only [Fin.castSucc_zero] at h
      calc ∑ i : Fin n, (g i.castSucc.succ - g i.castSucc.castSucc)
          = ∑ i : Fin n, (g i.succ.castSucc - g i.castSucc.castSucc) := by
            refine Finset.sum_congr rfl fun i _ => ?_
            rw [Fin.succ_castSucc]
        _ = g (Fin.last n).castSucc - g 0 := h
    rw [hsum, Fin.succ_last]
    ring

lemma total_add {nx ny : ℕ} (a b : Matrix (Fin nx) (Fin ny) ℚ) :
    total (a + b) = total a + total b := by
  simp [total, Matrix.add_apply, Finset.sum_add_distrib]

lemma total_smul {nx ny : ℕ} (c : ℚ) (a : Matrix (Fin nx) (Fin ny) ℚ) :
    total (c • a) = c * total a := by
  simp [total, Matrix.smul_apply, smul_eq_mul, Finset.mul_sum]

lemma total_fluxDiv_closed {nx ny : ℕ} (dx dy : ℚ)
    (fx : Fin (nx + 1) → Fin ny → ℚ) (fy : Fin nx → Fin (ny + 1) → ℚ) :
    total (fluxDiv dx dy (closedFluxX fx) (closedFluxY fy)) = 0 := by
  unfold total fluxDiv
  simp only [Matrix.of_apply]
  have hx : ∑ i : Fin nx, ∑ j : Fin ny,
      (closedFluxX fx i.succ j - closedFluxX fx i.castSucc j) / dx = 0 := by
    rw [Finset.sum_comm]
    refine Finset.sum_eq_zero fun j _ => ?_
    rw [← Finset.sum_div, telescope nx fun e => closedFluxX fx e j]
    simp [closedFluxX]
  have hy : ∑ i : Fin nx, ∑ j : Fin ny,
      (closedFluxY fy i j.succ - closedFluxY fy i j.castSucc) / dy = 0 := by
    refine Finset.sum_eq_zero fun i _ => ?_
    rw [← Finset.sum_div, telescope ny fun e => closedFluxY fy i e]
    simp [closedFluxY]
  calc ∑ i : Fin nx, ∑ j : Fin ny,
        ((closedFluxX fx i.succ j - closedFluxX fx i.castSucc j) / dx
          + (closedFluxY fy i j.succ - closedFluxY fy i j.castSucc) / dy)
      = (∑ i : Fin nx, ∑ j : Fin ny,
          (closedFluxX fx i.succ j - closedFluxX fx i.castSucc j) / dx)
        + ∑ i : Fin nx, ∑ j : Fin ny,
            (closedFluxY fy i j.succ - closedFluxY fy i j.castSucc) / dy := by
        rw [← Finset.sum_add_distrib]
        exact Finset.sum_congr rfl fun i _ => by rw [← Finset.sum_add_distrib]
    _ = 0 := by rw [hx, hy, add_zero]

lemma total_step {nx ny : ℕ} (p : QGParams nx ny) (sch : Scheme nx ny)
    (s : QGState nx ny) (htau : p.tau0 = 0) (hdrag : p.bottom_drag_coef = 0)
    (hmask : ∀ i j, p.maskC i j = true) :
    total (step p sch s).q = total s.q := by
  have hmask' : ∀ x : Matrix (Fin nx) (Fin ny) ℚ, applyMask p x = x := by
    intro x; ext i j; simp [applyMask, hmask i j]
  have htend : tendency p sch s.psi s.q
      = -fluxDiv p.dx p.dy (closedFluxX (sch.fluxX s.psi s.q))
          (closedFluxY (sch.fluxY s.psi s.q)) := by
    unfold tendency
    rw [htau, hdrag]
    simp
  show total (applyMask p (s.q + s.dt • tendency p sch s.psi s.q)) = total s.q
  rw [hmask', total_add, total_smul, htend]
  have hneg : total (-fluxDiv p.dx p.dy (closedFluxX (sch.fluxX s.psi s.q))
      (closedFluxY (sch.fluxY s.psi s.q))) = 0 := by
    have h0 := total_fluxDiv_closed p.dx p.dy (sch.fluxX s.psi s.q) (sch.fluxY s.psi s.q)
    have hn : total (-fluxDiv p.dx p.dy (closedFluxX (sch.fluxX s.psi s.q))
        (closedFluxY (sch.fluxY s.psi s.q)))
        = -total (fluxDiv p.dx p.dy (closedFluxX (sch.fluxX s.psi s.q))
            (closedFluxY (sch.fluxY s.psi s.q))) := by
      simp [total, Matrix.neg_apply, Finset.sum_neg_distrib]
    rw [hn, h0, neg_zero]
  rw [hneg, mul_zero, add_zero]

/-- C3: with zero wind forcing, zero bottom drag and a fully valid mask, the
domain integral of the PV field q is exactly invariant under every number of
step calls — the flux-form advection telescopes and the closed-domain
boundary fluxes vanish. -/
theorem step_conserves_total {nx ny : ℕ} (p : QGParams nx ny)
    (sch : Scheme nx ny) (s : QGState nx ny) (htau : p.tau0 = 0)
    (hdrag : p.bottom_drag_coef = 0) (hmask : ∀ i j, p.maskC i j = true)
    (n : ℕ) : total ((step p sch)^[n] s).q = total s.q := by
  induction n with
  | zero => rfl
  | succ n ih =>
    rw [Function.iterate_succ_apply',
      total_step p sch ((step p sch)^[n] s) htau hdrag hmask, ih]

/-- C4: for every mask configuration, every excluded center cell holds its
prescribed boundary value after any number of steps — step reapplies the
center mask as part of the PV update, so no values leak into excluded
cells (assuming the initial state satisfies the prescription, as the masked
construction guarantees). -/
theorem step_masked_invariant {nx ny : ℕ} (p : QGParams nx ny)
    (sch : Scheme nx ny) (s : QGState nx ny)
    (h0 : ∀ i j, p.maskC i j = false → s.q i j = p.bval i j) (n : ℕ)
    (i : Fin nx) (j : Fin ny) (hm : p.maskC i j = false) :
    ((step p sch)^[n] s).q i j = p.bval i j := by
  induction n with
  | zero => exact h0 i j hm
  | succ n ih =>
    rw [Function.iterate_succ_apply']
    show applyMask p _ i j = p.bval i j
    simp [applyMask, hm]

/-- C6: writing to the PV field through the mutable accessor leaves the
streamfunction unchanged (it stays stale until an explicit inversion or a
step recomputes it), while the PV field itself takes the written value. -/
theorem setQ_frame {nx ny : ℕ} (s : QGState nx ny)
    (qnew : Matrix (Fin nx) (Fin ny) ℚ) :
    (setQ s qnew).psi = s.psi ∧ (setQ s qnew).q = qnew ∧
    (setQ s qnew).t = s.t ∧ (setQ s qnew).dt = s.dt :=
  ⟨rfl, rfl, rfl, rfl⟩

/-- C9: dt is mutable after construction and only read by step.  With valid
physical parameters, construction with dt = 0 succeeds (dt is not validated),
the initial streamfunction produced by the construction-time inversion does
not depend on dt, and after assigning any new dt to the state, step advances
the clock by exactly that dt and updates q with exactly that dt times a
tendency computed from the fields alone. -/
theorem dt_mutable_after_construction {nx ny : ℕ} (p : QGParams nx ny)
    (sch : Scheme nx ny) (q0 : Matrix (Fin nx) (Fin ny) ℚ)
    (hH : 0 < p.H) (hdx : 0 < p.dx) (hdy : 0 < p.dy) :
    (∃ s0, mkQGState { p with dt := 0 } sch q0 = Except.ok s0) ∧
    (∀ d₁ d₂ : ℚ,
      (mkQGState { p with dt := d₁ } sch q0).toOption.map QGState.psi
        = (mkQGState { p with dt := d₂ } sch q0).toOption.map QGState.psi) ∧
    (∀ (s : QGState nx ny) (d : ℚ),
      (step p sch (setDt s d)).dt = d ∧
      (step p sch (setDt s d)).t = s.t + d ∧
      (step p sch (setDt s d)).q
        = applyMask p (s.q + d • tendency p sch s.psi s.q)) := by
  refine ⟨?_, ?_, ?_⟩
  · refine ⟨⟨applyMask p q0, sch.invert (applyMask p q0), 0, 0⟩, ?_⟩
    simp only [mkQGState]
    rw [if_neg, if_neg]
    · rfl
    · exact not_or.mpr ⟨hdx.not_le, hdy.not_le⟩
    · exact hH.not_le
  · intro d₁ d₂
    have h : ∀ d : ℚ, mkQGState { p with dt := d } sch q0
        = Except.ok ⟨applyMask p q0, sch.invert (applyMask p q0), 0, d⟩ := by
      intro d
      simp only [mkQGState]
      rw [if_neg, if_neg]
      · rfl
      · exact not_or.mpr ⟨hdx.not_le, hdy.not_le⟩
      · exact hH.not_le
    rw [h d₁, h d₂]
    rfl
  · intro s d
    exact ⟨rfl, rfl, rfl⟩

/-- C10: the stepped core is deterministic: two states with identical fields,
clock and time step produce identical PV and streamfunction trajectories
under every number of steps — there is no hidden input or randomness in the
model. -/
theorem step_deterministic {nx ny : ℕ} (p : QGParams nx ny)
    (sch : Scheme nx ny) (s1 s2 : QGState nx ny) (hq : s1.q = s2.q)
    (hpsi : s1.psi = s2.psi) (ht : s1.t = s2.t) (hdt : s1.dt = s2.dt)
    (n : ℕ) :
    ((step p sch)^[n] s1).q = ((step p sch)^[n] s2).q ∧
    ((step p sch)^[n] s1).psi = ((step p sch)^[n] s2).psi := by
  have hs : s1 = s2 := by
    cases s1; cases s2
    simp only at hq hpsi ht hdt
    simp [hq, hpsi, ht, hdt]
  rw [hs]
  exact ⟨rfl, rfl⟩

/-- Trivial concrete scheme for the evaluation instances: zero fluxes, the
identity as elliptic inversion, zero wind-curl pattern. -/
def sch1 : Scheme 1 1 :=
  ⟨fun _ _ _ _ => 0, fun _ _ _ _ => 0, id, 0⟩

/-- Concrete valid parameters mirroring the driver configuration (unit
spacings, H = 1000, g_prime = 10, zero forcing and drag, all-valid mask). -/
def p2 : QGParams 1 1 :=
  ⟨1, 1, 1000, 10, 1, 0, 0, fun _ _ => true, 0, 0⟩

/-- Concrete simulation state for the evaluation instances. -/
def s2 : QGState 1 1 := ⟨psi1, psi1, 0, 1⟩

/-- Second copy of the concrete state, used to exercise determinism across
two separately constructed but equal states. -/
def s2b : QGState 1 1 := ⟨psi1, psi1, 0, 1⟩

/-- Concrete parameters whose single center cell is excluded by the mask,
with prescribed boundary value zero. -/
def p4 : QGParams 1 1 :=
  ⟨1, 1, 1000, 10, 1, 0, 0, fun _ _ => false, 0, 0⟩

/-- Concrete state whose PV already satisfies the masked prescription. -/
def s4 : QGState 1 1 := ⟨0, 0, 0, 1⟩

/-- Witness for C3: two steps of the zero-forcing, zero-drag, fully valid
configuration leave the domain integral of q unchanged. -/
theorem step_conserves_total_witness :
    (p2.tau0 = 0) ∧ (p2.bottom_drag_coef = 0) ∧ (∀ i j, p2.maskC i j = true) ∧
    total ((step p2 sch1)^[2] s2).q = total s2.q :=
  ⟨rfl, rfl, fun _ _ => rfl,
    step_conserves_total p2 sch1 s2 rfl rfl (fun _ _ => rfl) 2⟩

/-- Witness for C4: after three steps with the excluded-cell configuration,
the excluded center cell still holds its prescribed boundary value. -/
theorem step_masked_invariant_witness :
    (∀ i j, p4.maskC i j = false → s4.q i j = p4.bval i j) ∧
    (p4.maskC 0 0 = false) ∧
    ((step p4 sch1)^[3] s4).q 0 0 = p4.bval 0 0 :=
  ⟨fun _ _ _ => rfl, rfl,
    step_masked_invariant p4 sch1 s4 (fun _ _ _ => rfl) 3 0 0 rfl⟩

/-- Witness for C9: with the concrete valid parameters, construction with
dt = 0 succeeds and a step after assigning dt = 2 advances the clock by
exactly 2. -/
theorem dt_mutable_after_construction_witness :
    (0 < p2.H ∧ 0 < p2.dx ∧ 0 < p2.dy) ∧
    (∃ s0, mkQGState { p2 with dt := 0 } sch1 psi1 = Except.ok s0) ∧
    (step p2 sch1 (setDt s2 2)).dt = 2 ∧
    (step p2 sch1 (setDt s2 2)).t = s2.t + 2 := by
  have hH : 0 < p2.H := by norm_num [p2]
  have hdx : 0 < p2.dx := by norm_num [p2]
  have hdy : 0 < p2.dy := by norm_num [p2]
  obtain ⟨hex, hpsi, hstep⟩ := dt_mutable_after_construction p2 sch1 psi1 hH hdx hdy
  exact ⟨⟨hH, hdx, hdy⟩, hex, (hstep s2 2).1, (hstep s2 2).2.1⟩

/-- Witness for C10: two separately constructed equal states yield the same
PV field after three steps. -/
theorem step_deterministic_witness :
    (s2.q = s2b.q ∧ s2.psi = s2b.psi ∧ s2.t = s2b.t ∧ s2.dt = s2b.dt) ∧
    ((step p2 sch1)^[3] s2).q = ((step p2 sch1)^[3] s2b).q :=
  ⟨⟨rfl, rfl, rfl, rfl⟩,
    (step_deterministic p2 sch1 s2 s2b rfl rfl rfl rfl 3).1⟩
